import Mathlib

/-!
Verification of the task status-transition approval engine of the
team_project_management repository.

The transition tables are embedded from
`src/frontend/src/pages/Tasks/index.tsx` and `src/prototype/app.js`.
The backend approval engine (FastAPI service) is not part of the source
tree we were given, so its operations are modelled from the spec
(sections 4.2-4.5); each such definition carries a doc comment starting
with `Modelled from the spec:`.
-/

namespace TPM

/-- The six task statuses (`TaskStatus` union type used by
`src/frontend/src/pages/Tasks/index.tsx`; they match the `status` column
comment of the `tasks` table in the SQL schema). -/
inductive TaskStatus
  | todo
  | task_review
  | in_progress
  | result_review
  | done
  | cancelled
deriving DecidableEq, BEq, Repr

/-- `STATUS_TRANSITIONS` from `src/frontend/src/pages/Tasks/index.tsx`
lines 44-51: for each status, the list of statuses it may move to. -/
def STATUS_TRANSITIONS : TaskStatus → List TaskStatus
  | .todo => [.task_review, .cancelled]
  | .task_review => [.todo, .in_progress, .cancelled]
  | .in_progress => [.result_review, .cancelled]
  | .result_review => [.in_progress, .done, .cancelled]
  | .done => [.cancelled]
  | .cancelled => [.todo]

/-- `canTransitionTo` from `src/frontend/src/pages/Tasks/index.tsx`
lines 54-57: a self-transition is always allowed, otherwise the move
must be listed in `STATUS_TRANSITIONS`. -/
def canTransitionTo (currentStatus targetStatus : TaskStatus) : Bool :=
  if currentStatus = targetStatus then true
  else (STATUS_TRANSITIONS currentStatus).contains targetStatus

/-- The directed legal-move table of spec section 4.1, transcribed edge
by edge from the spec text (refinement reference, not from the code). -/
def spec41Edges : List (TaskStatus × TaskStatus) :=
  [ (.todo, .task_review), (.todo, .cancelled),
    (.task_review, .todo), (.task_review, .in_progress), (.task_review, .cancelled),
    (.in_progress, .result_review), (.in_progress, .cancelled),
    (.result_review, .in_progress), (.result_review, .done), (.result_review, .cancelled),
    (.done, .cancelled),
    (.cancelled, .todo) ]

/-- `(s, t)` is an edge of the section-4.1 table. -/
def spec41Edge (s t : TaskStatus) : Bool :=
  spec41Edges.contains (s, t)

/-- The frontend table viewed as an edge relation: `t` is listed among
the targets of `s` in `STATUS_TRANSITIONS`. -/
def frontEdge (s t : TaskStatus) : Bool :=
  (STATUS_TRANSITIONS s).contains t

/-- `TASK_STATUSES` from `src/prototype/app.js` lines 193-199, keeping
only the `nextActions` field this development is about.  The prototype
object has no `cancelled` key, which the embedding records as `none`. -/
def protoNextActions : TaskStatus → Option (List TaskStatus)
  | .todo => some [.task_review]
  | .task_review => some [.todo, .in_progress]
  | .in_progress => some [.task_review, .result_review]
  | .result_review => some [.in_progress, .done]
  | .done => some []
  | .cancelled => none

/-- The prototype offers the move `s -> t`: `t` is among the
`nextActions` of `s` (a status missing from the object offers nothing). -/
def protoOffers (s t : TaskStatus) : Bool :=
  match protoNextActions s with
  | some l => l.contains t
  | none => false

/-- The `STATUS_TRANSITIONS` record of the Tasks page keyed by the raw
strings a TypeScript `Record` is indexed with at runtime; entries appear
in the source order of `src/frontend/src/pages/Tasks/index.tsx` lines
44-51. -/
def statusTransitionsAssoc : List (String × List String) :=
  [ ("todo", ["task_review", "cancelled"]),
    ("task_review", ["todo", "in_progress", "cancelled"]),
    ("in_progress", ["result_review", "cancelled"]),
    ("result_review", ["in_progress", "done", "cancelled"]),
    ("done", ["cancelled"]),
    ("cancelled", ["todo"]) ]

/-- The property names a plain JavaScript object literal inherits from
`Object.prototype` (the standard members plus the Annex B accessors):
an index access with one of these names yields the inherited member,
not `undefined`. -/
def objectProtoKeys : List String :=
  [ "constructor", "hasOwnProperty", "isPrototypeOf", "propertyIsEnumerable",
    "toLocaleString", "toString", "valueOf", "__proto__",
    "__defineGetter__", "__defineSetter__", "__lookupGetter__", "__lookupSetter__" ]

/-- What a runtime index access `STATUS_TRANSITIONS[k]` can produce:
an own key holds the transition array; a name inherited from
`Object.prototype` holds a non-nullish, non-array member; any other
name yields `undefined`. -/
inductive JsProp
  | arr (targets : List String)
  | protoMember
  | missing
deriving DecidableEq, Repr

/-- Runtime property access on the `STATUS_TRANSITIONS` record: own
keys first, then the chain-inherited `Object.prototype` members. -/
def statusTransitionsGet (k : String) : JsProp :=
  match statusTransitionsAssoc.lookup k with
  | some targets => .arr targets
  | none => if k ∈ objectProtoKeys then .protoMember else .missing

/-- A JavaScript call either produces a value or throws a
`TypeError`. -/
inductive JsCallResult
  | value (b : Bool)
  | typeError
deriving DecidableEq, Repr

/-- `canTransitionTo` over raw strings, mirroring the runtime
behaviour of the TypeScript source.  On `currentStatus = targetStatus`
the lookup never happens.  Otherwise `STATUS_TRANSITIONS[currentStatus]`
is a prototype-chain property access: an own key gives the array and
`.includes` answers; a name with no property at all gives `undefined`,
`?.` short-circuits, and `?? false` yields `false`; but an
`Object.prototype`-inherited name gives a non-nullish member, `?.`
does **not** short-circuit, its `.includes` is `undefined`, and the
call throws a `TypeError`. -/
def canTransitionToStr (currentStatus targetStatus : String) : JsCallResult :=
  if currentStatus = targetStatus then .value true
  else
    match statusTransitionsGet currentStatus with
    | .arr targets => .value (targets.contains targetStatus)
    | .protoMember => .typeError
    | .missing => .value false

/-- The keys of the `STATUS_TRANSITIONS` record. -/
def transitionKeys : List String :=
  statusTransitionsAssoc.map Prod.fst

/-! ## The approval engine, modelled from the spec

The backend service implementing `requestTransition`, `castBallot` and
`cancelPendingApproval` is not among the source files (only its frontend
callers, the SQL schema and the API document are), so the definitions
below are modelled from spec sections 3-4.5. -/

/-- Modelled from the spec: a ballot's `vote` field (section 3). -/
inductive Vote
  | pending
  | approved
  | rejected
deriving DecidableEq, Repr

/-- Modelled from the spec: a pending approval's `outcome` field
(section 3).  `open` is a Lean keyword, hence the trailing underscore. -/
inductive Outcome
  | open_
  | approved
  | rejected
  | cancelled
deriving DecidableEq, Repr

/-- Modelled from the spec: the error kinds of section 7. -/
inductive EngineError
  | InvalidTransition
  | Unauthorized
  | DuplicatePendingApproval
  | AlreadyVoted
  | AlreadyResolved
  | TaskLocked
  | NotFound
deriving DecidableEq, Repr

/-- Modelled from the spec: one stakeholder's vote record against a
pending approval (section 3, `Ballot`). -/
structure Ballot where
  stakeholder_id : Nat
  vote : Vote
deriving DecidableEq, Repr

/-- Modelled from the spec: a `PendingApproval` row with its child
ballots (section 3; the persisted shape of section 6 keeps the ballots
with their parent approval). -/
structure PendingApproval where
  id : Nat
  from_status : TaskStatus
  to_status : TaskStatus
  requester_id : Nat
  outcome : Outcome
  ballots : List Ballot
deriving DecidableEq, Repr

/-- Modelled from the spec: a `HistoryEntry` row (section 3), matching
the `task_status_history` columns of the SQL schema that the engine
writes (`review_result` is `"passed"`, `"rejected"` or null). -/
structure HistoryEntry where
  from_status : TaskStatus
  to_status : TaskStatus
  changed_by : Nat
  review_result : Option String
  feedback : Option String
deriving DecidableEq, Repr

/-- Modelled from the spec: the one task the engine acts on (section 3,
`Task`); member identifiers are natural numbers. -/
structure Task where
  status : TaskStatus
  stakeholder_ids : List Nat
  creator_id : Nat
deriving DecidableEq, Repr

/-- Modelled from the spec: the engine's persistent state for one task,
`none` once the task has been deleted.  `nextId` feeds fresh
`PendingApproval` ids. -/
structure EngineState where
  task : Option Task
  approvals : List PendingApproval
  history : List HistoryEntry
  nextId : Nat
deriving DecidableEq, Repr

/-- Modelled from the spec: `isLegal(from, to)` of section 4.1 — a
self-transition is always legal, otherwise the pair must be an edge of
the table. -/
def isLegal (s t : TaskStatus) : Bool :=
  decide (s = t) || spec41Edge s t

/-- An open `PendingApproval` exists in the state. -/
def hasOpenApproval (st : EngineState) : Bool :=
  st.approvals.any fun a => decide (a.outcome = .open_)

/-- The number of open approvals in a list. -/
def openCount (l : List PendingApproval) : Nat :=
  l.countP fun a => decide (a.outcome = .open_)

/-- Result of a transition request (section 4.2). -/
inductive RequestResult
  | appliedImmediately
  | pendingApprovalId (id : Nat)
deriving DecidableEq, Repr

/-- Modelled from the spec: `requestTransition` (section 4.2).
Preconditions in order: the requester is the task's creator or an admin
(the external authorization collaborator is passed in as `isAdmin`),
no open approval exists, and the move is legal.  A self-transition is a
legal no-op (section 4.1: no approval, no history row).  With an empty
roster the status is applied immediately with a null-review history
row; otherwise one open `PendingApproval` with a pending ballot per
roster member is created and the task's status is left unchanged. -/
def requestTransition (st : EngineState) (requesterId : Nat) (toStatus : TaskStatus)
    (isAdmin : Bool) : Except EngineError (EngineState × RequestResult) :=
  match st.task with
  | none => .error .NotFound
  | some task =>
    if requesterId = task.creator_id ∨ isAdmin = true then
      if hasOpenApproval st then .error .DuplicatePendingApproval
      else if isLegal task.status toStatus then
        if task.status = toStatus then
          .ok (st, .appliedImmediately)
        else if task.stakeholder_ids.isEmpty then
          .ok ({ st with
                  task := some { task with status := toStatus },
                  history := st.history ++
                    [⟨task.status, toStatus, requesterId, none, none⟩] },
               .appliedImmediately)
        else
          .ok ({ st with
                  approvals := st.approvals ++
                    [⟨st.nextId, task.status, toStatus, requesterId, .open_,
                      task.stakeholder_ids.map fun m => ⟨m, .pending⟩⟩],
                  nextId := st.nextId + 1 },
               .pendingApprovalId st.nextId)
      else .error .InvalidTransition
    else .error .Unauthorized

/-- The approval with the given id, if any. -/
def findApproval (st : EngineState) (aid : Nat) : Option PendingApproval :=
  st.approvals.find? fun a => decide (a.id = aid)

/-- Replace the elements whose id matches `a.id` by `a`. -/
def replaceApproval (l : List PendingApproval) (a : PendingApproval) :
    List PendingApproval :=
  l.map fun x => if x.id = a.id then a else x

/-- Replace the approval whose id matches `a.id` by `a`. -/
def setApproval (st : EngineState) (a : PendingApproval) : EngineState :=
  { st with approvals := replaceApproval st.approvals a }

/-- Set the vote of the ballot owned by stakeholder `s`. -/
def setVote (bs : List Ballot) (s : Nat) (v : Vote) : List Ballot :=
  bs.map fun b => if b.stakeholder_id = s then { b with vote := v } else b

/-- Every ballot of the list is `approved`. -/
def allApproved (bs : List Ballot) : Bool :=
  bs.all fun b => decide (b.vote = .approved)

/-- A stakeholder's vote decision (section 4.3: `vote ∈ {approved,
rejected}`). -/
inductive BallotDecision
  | approve
  | reject
deriving DecidableEq, Repr

/-- Modelled from the spec: `castBallot` (section 4.3).  The approval
must still be open (`NotFound` / `AlreadyResolved` otherwise) and the
caller must own a pending ballot on it (`Unauthorized` if not on the
roster, `AlreadyVoted` if already voted).  A `rejected` vote finalizes
the approval immediately as rejected, leaves the task's status
unchanged, and writes a history row with `review_result = "rejected"`.
An `approved` vote finalizes as approved — applying `to_status` and
writing a `"passed"` history row — exactly when every ballot is then
approved; otherwise the approval stays open. -/
def castBallot (st : EngineState) (aid stakeholderId : Nat) (d : BallotDecision)
    (comment : Option String) : Except EngineError EngineState :=
  match findApproval st aid with
  | none => .error .NotFound
  | some a =>
    if a.outcome = .open_ then
      match a.ballots.find? fun b => decide (b.stakeholder_id = stakeholderId) with
      | none => .error .Unauthorized
      | some b =>
        if b.vote = .pending then
          match d with
          | .reject =>
            .ok { setApproval st
                    { a with ballots := setVote a.ballots stakeholderId .rejected,
                             outcome := .rejected } with
                  history := st.history ++
                    [⟨a.from_status, a.to_status, stakeholderId, some "rejected", comment⟩] }
          | .approve =>
            let bs := setVote a.ballots stakeholderId .approved
            if allApproved bs then
              .ok { setApproval st { a with ballots := bs, outcome := .approved } with
                    task := st.task.map fun t => { t with status := a.to_status },
                    history := st.history ++
                      [⟨a.from_status, a.to_status, stakeholderId, some "passed", comment⟩] }
            else
              .ok (setApproval st { a with ballots := bs })
        else .error .AlreadyVoted
    else .error .AlreadyResolved

/-- Modelled from the spec: `cancelPendingApproval` (section 4.4) —
permitted only while the outcome is still open and only for the
original requester; sets the outcome to `cancelled`, leaving the
task's status and the history untouched. -/
def cancelPendingApproval (st : EngineState) (aid requesterId : Nat) :
    Except EngineError EngineState :=
  match findApproval st aid with
  | none => .error .NotFound
  | some a =>
    if a.outcome = .open_ then
      if requesterId = a.requester_id then
        .ok (setApproval st { a with outcome := .cancelled })
      else .error .Unauthorized
    else .error .AlreadyResolved

/-- Modelled from the spec: a field edit of the task, rejected with
`TaskLocked` while an approval is open (section 4.5).  The one mutable
field the engine cares about is the stakeholder roster. -/
def editTask (st : EngineState) (newStakeholders : List Nat) :
    Except EngineError EngineState :=
  match st.task with
  | none => .error .NotFound
  | some task =>
    if hasOpenApproval st then .error .TaskLocked
    else .ok { st with task := some { task with stakeholder_ids := newStakeholders } }

/-- Modelled from the spec: task deletion, rejected with `TaskLocked`
while an approval is open (section 4.5).  Per the SQL schema in the
source (`task_status_history.task_id ... ON DELETE CASCADE`), deleting
the task cascades to its history rows; the task's approval aggregate
goes with it. -/
def deleteTask (st : EngineState) : Except EngineError EngineState :=
  match st.task with
  | none => .error .NotFound
  | some _ =>
    if hasOpenApproval st then .error .TaskLocked
    else .ok { st with task := none, approvals := [], history := [] }

/-- One engine operation, for reachability statements. -/
inductive Op
  | request (requesterId : Nat) (toStatus : TaskStatus) (isAdmin : Bool)
  | cast (aid stakeholderId : Nat) (d : BallotDecision) (comment : Option String)
  | cancel (aid requesterId : Nat)
  | edit (newStakeholders : List Nat)
  | del
deriving DecidableEq, Repr

/-- Apply one operation; a failing operation leaves the state unchanged
(section 7: every error is a synchronous validation failure). -/
def step (st : EngineState) (op : Op) : EngineState :=
  match op with
  | .request r tgt adm =>
    match requestTransition st r tgt adm with
    | .ok (st', _) => st'
    | .error _ => st
  | .cast aid s d c =>
    match castBallot st aid s d c with
    | .ok st' => st'
    | .error _ => st
  | .cancel aid r =>
    match cancelPendingApproval st aid r with
    | .ok st' => st'
    | .error _ => st
  | .edit ns =>
    match editTask st ns with
    | .ok st' => st'
    | .error _ => st
  | .del =>
    match deleteTask st with
    | .ok st' => st'
    | .error _ => st

/-- Run a sequence of operations. -/
def run (st : EngineState) (ops : List Op) : EngineState :=
  ops.foldl step st

/-- The engine's initial state for a freshly created task: no
approvals, no history. -/
def initState (t : Task) : EngineState :=
  ⟨some t, [], [], 0⟩

/-- Section 3 invariant: at most one `PendingApproval` with
`outcome = open` per task. -/
def atMostOneOpen (st : EngineState) : Prop :=
  openCount st.approvals ≤ 1

/-! ## Concrete states used by the witnesses -/

/-- A sample task used by the concrete witnesses: status `todo`,
roster `{1, 2}`, created by member `0`. -/
def wTask : Task :=
  ⟨.todo, [1, 2], 0⟩

/-- The open approval produced by the C2 witness request, used by the
voting witnesses: roster `{1, 2}`, both ballots pending. -/
def wPending : PendingApproval :=
  ⟨0, .todo, .task_review, 0, .open_, [⟨1, .pending⟩, ⟨2, .pending⟩]⟩

/-- State of `wTask` with the single open approval `wPending`. -/
def wStPending : EngineState :=
  ⟨some wTask, [wPending], [], 1⟩

/-- `wPending` after stakeholder 1 has approved: ballot 1 approved,
ballot 2 still pending, approval still open. -/
def wHalf : PendingApproval :=
  ⟨0, .todo, .task_review, 0, .open_, [⟨1, .approved⟩, ⟨2, .pending⟩]⟩

/-- State of `wTask` with the half-approved approval `wHalf`. -/
def wStHalf : EngineState :=
  ⟨some wTask, [wHalf], [], 1⟩

/-- State of `wTask` with no approvals and one history row already
written, for exercising deletion. -/
def wStLogged : EngineState :=
  ⟨some wTask, [], [⟨.todo, .task_review, 0, none, none⟩], 1⟩

/-! ## Theorems -/

/-- C1: for every pair of the six task statuses, `canTransitionTo`
returns `true` exactly when the pair is an edge of the section-4.1
table or a self-transition, and `false` for every other pair. -/
theorem canTransitionTo_matches_spec41 :
    ∀ s t : TaskStatus, canTransitionTo s t = (spec41Edge s t || decide (s = t)) := by
  intro s t
  cases s <;> cases t <;> decide

/-- C8 counterexample: the prototype offers `in_progress ->
task_review`, which is not an edge of the section-4.1 table as
implemented by `STATUS_TRANSITIONS`, and fails to offer the edge
`done -> cancelled`, which is. -/
theorem protoOffers_ne_frontEdge :
    protoOffers .in_progress .task_review = true ∧
    frontEdge .in_progress .task_review = false ∧
    protoOffers .done .cancelled = false ∧
    frontEdge .done .cancelled = true := by
  decide

/-- C8 amended: the prototype's table agrees with `STATUS_TRANSITIONS`
only away from `cancelled` and up to one extra edge — a move is offered
by the prototype iff it is a table edge not involving `cancelled`, or
it is the additional prototype edge `in_progress -> task_review`. -/
theorem protoOffers_characterization :
    ∀ s t : TaskStatus,
      protoOffers s t =
        ((frontEdge s t && !(decide (s = .cancelled)) && !(decide (t = .cancelled))) ||
         (decide (s = .in_progress) && decide (t = .task_review))) := by
  intro s t
  cases s <;> cases t <;> decide

/-- Helper: a string that is not among the record's keys misses the
own-key lookup. -/
theorem lookup_none_of_not_keys (s : String) (hk : s ∉ transitionKeys) :
    statusTransitionsAssoc.lookup s = none := by
  have hmem : s ≠ "todo" ∧ s ≠ "task_review" ∧ s ≠ "in_progress" ∧
      s ≠ "result_review" ∧ s ≠ "done" ∧ s ≠ "cancelled" := by
    simpa [transitionKeys, statusTransitionsAssoc] using hk
  obtain ⟨h1, h2, h3, h4, h5, h6⟩ := hmem
  have e1 : (s == "todo") = false := beq_eq_false_iff_ne.mpr h1
  have e2 : (s == "task_review") = false := beq_eq_false_iff_ne.mpr h2
  have e3 : (s == "in_progress") = false := beq_eq_false_iff_ne.mpr h3
  have e4 : (s == "result_review") = false := beq_eq_false_iff_ne.mpr h4
  have e5 : (s == "done") = false := beq_eq_false_iff_ne.mpr h5
  have e6 : (s == "cancelled") = false := beq_eq_false_iff_ne.mpr h6
  simp [statusTransitionsAssoc, List.lookup, e1, e2, e3, e4, e5, e6]

/-- C10 counterexample: `"toString"` is a status string outside the
six-state enum and outside the table, yet `canTransitionTo` does not
return a boolean for it — the index access hits the inherited
`Object.prototype.toString`, `?.` does not short-circuit, and the
`.includes` call throws a `TypeError`. -/
theorem canTransitionToStr_toString_throws :
    "toString" ∉ transitionKeys ∧ "toString" ≠ "todo" ∧
    canTransitionToStr "toString" "todo" = .typeError ∧
    ∀ b, canTransitionToStr "toString" "todo" ≠ .value b := by
  refine ⟨by decide, by decide, by decide, ?_⟩
  intro b
  cases b <;> decide

/-- C10 amended: `canTransitionTo` over raw strings returns `true` on
every self-transition (the lookup never runs); on a `currentStatus`
that is neither a table key nor an `Object.prototype`-inherited
property name, the access yields `undefined`, `?.` short-circuits and
`?? false` yields `false`; but on an inherited property name (with a
different target) the access is non-nullish and the `.includes` call
throws a `TypeError`, so the function is not total over raw strings. -/
theorem canTransitionToStr_behavior (s t : String) :
    (s = t → canTransitionToStr s t = .value true) ∧
    (s ∉ transitionKeys → s ∉ objectProtoKeys → s ≠ t →
      canTransitionToStr s t = .value false) ∧
    (s ∉ transitionKeys → s ∈ objectProtoKeys → s ≠ t →
      canTransitionToStr s t = .typeError) := by
  refine ⟨?_, ?_, ?_⟩
  · intro h
    simp [canTransitionToStr, h]
  · intro hk hp hne
    simp [canTransitionToStr, statusTransitionsGet, hne,
      lookup_none_of_not_keys s hk, hp]
  · intro hk hp hne
    simp [canTransitionToStr, statusTransitionsGet, hne,
      lookup_none_of_not_keys s hk, hp]

/-- C2: on a task with a non-empty roster snapshot, a successful
non-trivial `requestTransition` appends exactly one `PendingApproval`
with `outcome = open` recording `from_status` = the task's current
status and `to_status` = the requested status, with exactly one
`pending` ballot per roster member, and changes nothing else: the
task's status field and the history are untouched. -/
theorem requestTransition_creates_pending
    (st : EngineState) (task : Task) (r : Nat) (tgt : TaskStatus) (adm : Bool)
    (htask : st.task = some task)
    (hauth : r = task.creator_id ∨ adm = true)
    (hdup : hasOpenApproval st = false)
    (hlegal : isLegal task.status tgt = true)
    (hself : task.status ≠ tgt)
    (hroster : task.stakeholder_ids ≠ []) :
    requestTransition st r tgt adm =
      .ok ({ st with
              approvals := st.approvals ++
                [⟨st.nextId, task.status, tgt, r, .open_,
                  task.stakeholder_ids.map fun m => ⟨m, .pending⟩⟩],
              nextId := st.nextId + 1 },
           .pendingApprovalId st.nextId) := by
  simp only [requestTransition, htask]
  rw [if_pos hauth, if_neg (by simp [hdup]), if_pos hlegal, if_neg hself,
    if_neg (by simpa using hroster)]

/-- C2 witness: the creator of `wTask` requests `task_review` on the
fresh state; one open approval with two pending ballots appears. -/
theorem requestTransition_creates_pending_witness :
    requestTransition (initState wTask) 0 .task_review false =
      .ok (⟨some wTask,
            [⟨0, .todo, .task_review, 0, .open_, [⟨1, .pending⟩, ⟨2, .pending⟩]⟩],
            [], 1⟩,
           .pendingApprovalId 0) :=
  requestTransition_creates_pending (initState wTask) wTask 0 .task_review false rfl
    (Or.inl rfl) (by decide) (by decide) (by decide) (by decide)

/-- Helper: replacing the element an id-search found, by an element
with the same id, makes the search return the replacement. -/
theorem find_replace (l : List PendingApproval) (aid : Nat) (a a' : PendingApproval)
    (hfind : l.find? (fun x => decide (x.id = aid)) = some a) (hid : a'.id = a.id) :
    (replaceApproval l a').find? (fun x => decide (x.id = aid)) = some a' := by
  have haid : a.id = aid := by simpa using List.find?_some hfind
  induction l with
  | nil => simp at hfind
  | cons x xs ih =>
    by_cases hx : x.id = aid
    · rw [List.find?_cons_of_pos _ (by simpa using hx)] at hfind
      obtain rfl : x = a := by injection hfind
      have hx' : x.id = a'.id := by rw [hid]
      simp only [replaceApproval, List.map_cons, if_pos hx']
      rw [List.find?_cons_of_pos _ (by simp [hid, haid])]
    · rw [List.find?_cons_of_neg _ (by simpa using hx)] at hfind
      have hx' : ¬ x.id = a'.id := by rw [hid, haid]; exact hx
      simp only [replaceApproval, List.map_cons, if_neg hx']
      rw [List.find?_cons_of_neg _ (by simpa using hx)]
      exact ih hfind

/-- Helper: counting open approvals through a cons cell. -/
theorem openCount_cons (x : PendingApproval) (xs : List PendingApproval) :
    openCount (x :: xs) = openCount xs + (if x.outcome = .open_ then 1 else 0) := by
  simp [openCount, List.countP_cons]

/-- Helper: the replacement of id-matching elements by a non-open
approval never increases the number of open approvals. -/
theorem openCount_replace_le (l : List PendingApproval) (a' : PendingApproval)
    (h : a'.outcome ≠ .open_) :
    openCount (replaceApproval l a') ≤ openCount l := by
  induction l with
  | nil => simp [openCount, replaceApproval]
  | cons x xs ih =>
    simp only [replaceApproval, List.map_cons] at *
    rw [openCount_cons, openCount_cons]
    by_cases hx : x.id = a'.id
    · rw [if_pos hx, if_neg h]
      split <;> omega
    · rw [if_neg hx]
      split <;> omega

/-- Helper: if the state satisfies the at-most-one-open bound and the
open approval `a` is replaced by a non-open `a'` with the same id, no
open approval remains. -/
theorem openCount_replace_zero (l : List PendingApproval) (a a' : PendingApproval)
    (hle : openCount l ≤ 1) (hmem : a ∈ l) (hopen : a.outcome = .open_)
    (hid : a'.id = a.id) (hnot : a'.outcome ≠ .open_) :
    openCount (replaceApproval l a') = 0 := by
  induction l with
  | nil => simp at hmem
  | cons x xs ih =>
    simp only [replaceApproval, List.map_cons]
    rw [openCount_cons]
    rw [openCount_cons] at hle
    rcases List.mem_cons.mp hmem with rfl | hmem'
    · rw [if_pos hid.symm, if_neg hnot]
      have hxs : openCount xs = 0 := by
        rw [if_pos hopen] at hle
        omega
      have hrep := openCount_replace_le xs a' hnot
      simp only [replaceApproval] at hrep
      omega
    · have hxs1 : 0 < openCount xs := by
        have : 0 < List.countP (fun a => decide (a.outcome = .open_)) xs :=
          List.countP_pos_iff.mpr ⟨a, hmem', by simp [hopen]⟩
        simpa [openCount] using this
      have hxnot : ¬ x.outcome = .open_ := by
        intro hxo
        rw [if_pos hxo] at hle
        omega
      have hle' : openCount xs ≤ 1 := by
        rw [if_neg hxnot] at hle
        omega
      have htl := ih hle' hmem'
      simp only [replaceApproval] at htl
      by_cases hx : x.id = a'.id
      · rw [if_pos hx, if_neg hnot]
        omega
      · rw [if_neg hx, if_neg hxnot]
        omega

/-- Helper: no open approval exists iff the open count is zero. -/
theorem hasOpen_false_iff (st : EngineState) :
    hasOpenApproval st = false ↔ openCount st.approvals = 0 := by
  simp [hasOpenApproval, openCount, List.countP_eq_zero, List.any_eq_true]

/-- C3: casting a `rejected` ballot on an open approval immediately
finalizes it with outcome `rejected`, leaves the task's status
unchanged, writes one history row with `review_result = "rejected"`,
and any later `castBallot` against that approval fails with
`AlreadyResolved` and produces no state. -/
theorem castBallot_reject_fail_fast
    (st : EngineState) (a : PendingApproval) (bl : Ballot) (aid s : Nat) (c : Option String)
    (hfind : findApproval st aid = some a)
    (hopen : a.outcome = .open_)
    (hb : (a.ballots.find? fun b => decide (b.stakeholder_id = s)) = some bl)
    (hbl : bl.vote = .pending) :
    ∃ st',
      castBallot st aid s .reject c = .ok st' ∧
      st'.task = st.task ∧
      st'.history = st.history ++ [⟨a.from_status, a.to_status, s, some "rejected", c⟩] ∧
      findApproval st' aid =
        some { a with ballots := setVote a.ballots s .rejected, outcome := .rejected } ∧
      ∀ s' d c', castBallot st' aid s' d c' = .error .AlreadyResolved := by
  have e : castBallot st aid s .reject c =
      .ok { setApproval st
              { a with ballots := setVote a.ballots s .rejected, outcome := .rejected } with
            history := st.history ++
              [⟨a.from_status, a.to_status, s, some "rejected", c⟩] } := by
    simp [castBallot, hfind, hopen, hb, hbl]
  have hf : findApproval
      { setApproval st
          { a with ballots := setVote a.ballots s .rejected, outcome := .rejected } with
        history := st.history ++
          [⟨a.from_status, a.to_status, s, some "rejected", c⟩] } aid =
      some { a with ballots := setVote a.ballots s .rejected, outcome := .rejected } :=
    find_replace st.approvals aid a _ hfind rfl
  exact ⟨_, e, rfl, rfl, hf, fun s' d c' => by simp [castBallot, hf]⟩

/-- C4: casting an `approved` ballot on an open approval finalizes it —
outcome `approved`, `to_status` applied to the task, exactly one
history row with `review_result = "passed"` — precisely when every
ballot on the approval is then approved; if some ballot is still
pending the approval remains open and the task and history are
unchanged. -/
theorem castBallot_approve_unanimous
    (st : EngineState) (a : PendingApproval) (bl : Ballot) (aid s : Nat) (c : Option String)
    (hfind : findApproval st aid = some a)
    (hopen : a.outcome = .open_)
    (hb : (a.ballots.find? fun b => decide (b.stakeholder_id = s)) = some bl)
    (hbl : bl.vote = .pending) :
    (allApproved (setVote a.ballots s .approved) = true →
      castBallot st aid s .approve c =
        .ok { setApproval st
                { a with ballots := setVote a.ballots s .approved,
                         outcome := .approved } with
              task := st.task.map fun t => { t with status := a.to_status },
              history := st.history ++
                [⟨a.from_status, a.to_status, s, some "passed", c⟩] }) ∧
    (allApproved (setVote a.ballots s .approved) = false →
      castBallot st aid s .approve c =
        .ok (setApproval st { a with ballots := setVote a.ballots s .approved }) ∧
      (setApproval st { a with ballots := setVote a.ballots s .approved }).task = st.task ∧
      (setApproval st { a with ballots := setVote a.ballots s .approved }).history
        = st.history ∧
      findApproval (setApproval st { a with ballots := setVote a.ballots s .approved }) aid =
        some { a with ballots := setVote a.ballots s .approved } ∧
      ({ a with ballots := setVote a.ballots s .approved } : PendingApproval).outcome
        = .open_) := by
  constructor
  · intro hall
    simp [castBallot, hfind, hopen, hb, hbl, hall]
  · intro hall
    refine ⟨by simp [castBallot, hfind, hopen, hb, hbl, hall], rfl, rfl, ?_, hopen⟩
    exact find_replace st.approvals aid a _ hfind rfl

/-- C3 witness: stakeholder 1 rejects the open approval of
`wStPending`; the conclusion holds at that concrete input. -/
theorem castBallot_reject_fail_fast_witness :
    ∃ st',
      castBallot wStPending 0 1 .reject (some "no") = .ok st' ∧
      st'.task = wStPending.task ∧
      st'.history = wStPending.history ++
        [⟨wPending.from_status, wPending.to_status, 1, some "rejected", some "no"⟩] ∧
      findApproval st' 0 =
        some { wPending with ballots := setVote wPending.ballots 1 .rejected,
                             outcome := .rejected } ∧
      ∀ s' d c', castBallot st' 0 s' d c' = .error .AlreadyResolved :=
  castBallot_reject_fail_fast wStPending wPending ⟨1, .pending⟩ 0 1 (some "no")
    rfl rfl rfl rfl

/-- C4 witness: stakeholder 1 approves first (approval stays open),
and on the state where stakeholder 1 has approved, stakeholder 2's
approval finalizes; both clauses are exercised concretely. -/
theorem castBallot_approve_unanimous_witness :
    (allApproved (setVote wPending.ballots 1 .approved) = false ∧
      castBallot wStPending 0 1 .approve none =
        .ok (setApproval wStPending
              { wPending with ballots := setVote wPending.ballots 1 .approved })) ∧
    (allApproved (setVote wHalf.ballots 2 .approved) = true ∧
      castBallot wStHalf 0 2 .approve none =
        .ok { setApproval wStHalf
                { wHalf with ballots := setVote wHalf.ballots 2 .approved,
                             outcome := .approved } with
              task := wStHalf.task.map fun t => { t with status := wHalf.to_status },
              history := wStHalf.history ++
                [⟨wHalf.from_status, wHalf.to_status, 2, some "passed", none⟩] }) :=
  ⟨⟨by decide,
    ((castBallot_approve_unanimous wStPending wPending ⟨1, .pending⟩ 0 1 none
      rfl rfl rfl rfl).2 (by decide)).1⟩,
   ⟨by decide,
    (castBallot_approve_unanimous wStHalf wHalf ⟨2, .pending⟩ 0 2 none
      rfl rfl rfl rfl).1 (by decide)⟩⟩

/-- C6: cancellation succeeds only for the approval's original
requester while the outcome is still open; a non-requester fails with
`Unauthorized`; a successful cancellation sets the outcome to
`cancelled`, leaves the task's status untouched, and a fresh
`requestTransition` for the task then goes through. -/
theorem cancelPendingApproval_requester_only
    (st : EngineState) (a : PendingApproval) (aid : Nat)
    (hfind : findApproval st aid = some a)
    (hopen : a.outcome = .open_) :
    (∀ x, x ≠ a.requester_id → cancelPendingApproval st aid x = .error .Unauthorized) ∧
    cancelPendingApproval st aid a.requester_id =
      .ok (setApproval st { a with outcome := .cancelled }) ∧
    (setApproval st { a with outcome := .cancelled }).task = st.task ∧
    (atMostOneOpen st →
      ∀ (task : Task) (r' : Nat) (tgt : TaskStatus) (adm : Bool),
        st.task = some task →
        (r' = task.creator_id ∨ adm = true) →
        isLegal task.status tgt = true →
        ∃ res,
          requestTransition (setApproval st { a with outcome := .cancelled }) r' tgt adm
            = .ok res) := by
  refine ⟨?_, ?_, rfl, ?_⟩
  · intro x hx
    simp [cancelPendingApproval, hfind, hopen, hx]
  · simp [cancelPendingApproval, hfind, hopen]
  · intro hinv task r' tgt adm htask hauth hlegal
    have hmem : a ∈ st.approvals := List.mem_of_find?_eq_some hfind
    have hnone : hasOpenApproval (setApproval st { a with outcome := .cancelled }) = false := by
      rw [hasOpen_false_iff]
      exact openCount_replace_zero st.approvals a _ hinv hmem hopen rfl (by simp)
    have htask' : (setApproval st { a with outcome := .cancelled }).task = some task := htask
    simp only [requestTransition, htask']
    rw [if_pos hauth, if_neg (by simp [hnone]), if_pos hlegal]
    by_cases h1 : task.status = tgt
    · rw [if_pos h1]
      exact ⟨_, rfl⟩
    · rw [if_neg h1]
      by_cases h2 : task.stakeholder_ids.isEmpty = true
      · rw [if_pos h2]
        exact ⟨_, rfl⟩
      · rw [if_neg h2]
        exact ⟨_, rfl⟩

/-- C6 witness: on `wStPending`, member 5 cannot cancel, the requester
(member 0) can, and a fresh request then succeeds. -/
theorem cancelPendingApproval_requester_only_witness :
    cancelPendingApproval wStPending 0 5 = .error .Unauthorized ∧
    cancelPendingApproval wStPending 0 0 =
      .ok (setApproval wStPending { wPending with outcome := .cancelled }) ∧
    ∃ res,
      requestTransition (setApproval wStPending { wPending with outcome := .cancelled })
        0 .task_review false = .ok res :=
  ⟨(cancelPendingApproval_requester_only wStPending wPending 0 rfl rfl).1 5 (by decide),
   (cancelPendingApproval_requester_only wStPending wPending 0 rfl rfl).2.1,
   (cancelPendingApproval_requester_only wStPending wPending 0 rfl rfl).2.2.2
     (show openCount wStPending.approvals ≤ 1 by decide)
     wTask 0 .task_review false rfl (Or.inl rfl) (by decide)⟩

/-- Helper: every successful `requestTransition` either leaves the
state alone (self-transition), applies the status immediately (empty
roster), or — when no approval was open — appends one fresh open
approval. -/
theorem requestTransition_ok_shape (st : EngineState) (r : Nat) (tgt : TaskStatus)
    (adm : Bool) (st' : EngineState) (res : RequestResult)
    (h : requestTransition st r tgt adm = .ok (st', res)) :
    st' = st ∨
    (∃ task, st.task = some task ∧
      st' = { st with
              task := some { task with status := tgt },
              history := st.history ++ [⟨task.status, tgt, r, none, none⟩] }) ∨
    (hasOpenApproval st = false ∧ ∃ task, st.task = some task ∧
      st' = { st with
              approvals := st.approvals ++
                [⟨st.nextId, task.status, tgt, r, .open_,
                  task.stakeholder_ids.map fun m => ⟨m, .pending⟩⟩],
              nextId := st.nextId + 1 }) := by
  unfold requestTransition at h
  rcases htask : st.task with _ | task <;> rw [htask] at h
  · simp at h
  · dsimp only at h
    by_cases h1 : r = task.creator_id ∨ adm = true
    · rw [if_pos h1] at h
      by_cases h2 : hasOpenApproval st = true
      · rw [if_pos h2] at h
        simp at h
      · rw [if_neg h2] at h
        by_cases h3 : isLegal task.status tgt = true
        · rw [if_pos h3] at h
          by_cases h4 : task.status = tgt
          · rw [if_pos h4] at h
            simp only [Except.ok.injEq, Prod.mk.injEq] at h
            exact Or.inl h.1.symm
          · rw [if_neg h4] at h
            by_cases h5 : task.stakeholder_ids.isEmpty = true
            · rw [if_pos h5] at h
              simp only [Except.ok.injEq, Prod.mk.injEq] at h
              exact Or.inr (Or.inl ⟨task, rfl, h.1.symm⟩)
            · rw [if_neg h5] at h
              simp only [Except.ok.injEq, Prod.mk.injEq] at h
              exact Or.inr (Or.inr ⟨by simpa using h2, task, rfl, h.1.symm⟩)
        · rw [if_neg h3] at h
          simp at h
    · rw [if_neg h1] at h
      simp at h

/-- Helper: every successful `castBallot` acts on an approval that was
open, replaces it in place by an approval with the same id, keeps the
id counter, and only ever appends to the history. -/
theorem castBallot_ok_shape (st : EngineState) (aid s : Nat) (d : BallotDecision)
    (c : Option String) (st' : EngineState)
    (h : castBallot st aid s d c = .ok st') :
    ∃ a a', findApproval st aid = some a ∧ a.outcome = .open_ ∧ a'.id = a.id ∧
      st'.approvals = replaceApproval st.approvals a' ∧
      st'.nextId = st.nextId ∧
      ∃ hs, st'.history = st.history ++ hs := by
  unfold castBallot at h
  rcases hfa : findApproval st aid with _ | a <;> rw [hfa] at h
  · simp at h
  · dsimp only at h
    by_cases hopen : a.outcome = .open_
    case neg =>
      rw [if_neg hopen] at h
      simp at h
    rw [if_pos hopen] at h
    rcases hfb : a.ballots.find? (fun b => decide (b.stakeholder_id = s)) with _ | bl <;>
      rw [hfb] at h
    · simp at h
    · dsimp only at h
      by_cases hbl : bl.vote = .pending
      case neg =>
        rw [if_neg hbl] at h
        simp at h
      rw [if_pos hbl] at h
      cases d with
      | reject =>
        simp only [Except.ok.injEq] at h
        subst h
        exact ⟨a, { a with ballots := setVote a.ballots s .rejected, outcome := .rejected },
          rfl, hopen, rfl, rfl, rfl,
          [⟨a.from_status, a.to_status, s, some "rejected", c⟩], rfl⟩
      | approve =>
        dsimp only at h
        by_cases hall : allApproved (setVote a.ballots s .approved) = true
        · rw [if_pos hall] at h
          simp only [Except.ok.injEq] at h
          subst h
          exact ⟨a, { a with ballots := setVote a.ballots s .approved, outcome := .approved },
            rfl, hopen, rfl, rfl, rfl,
            [⟨a.from_status, a.to_status, s, some "passed", c⟩], rfl⟩
        · rw [if_neg hall] at h
          simp only [Except.ok.injEq] at h
          subst h
          exact ⟨a, { a with ballots := setVote a.ballots s .approved },
            rfl, hopen, rfl, rfl, rfl, [], (List.append_nil _).symm⟩

/-- Helper: every successful cancellation replaces an open approval by
its cancelled copy, keeping everything else. -/
theorem cancelPendingApproval_ok_shape (st : EngineState) (aid r : Nat) (st' : EngineState)
    (h : cancelPendingApproval st aid r = .ok st') :
    ∃ a a', findApproval st aid = some a ∧ a.outcome = .open_ ∧ a'.id = a.id ∧
      st'.approvals = replaceApproval st.approvals a' ∧
      st'.nextId = st.nextId ∧ st'.history = st.history := by
  unfold cancelPendingApproval at h
  rcases hfa : findApproval st aid with _ | a <;> rw [hfa] at h
  · simp at h
  · dsimp only at h
    by_cases hopen : a.outcome = .open_
    case neg =>
      rw [if_neg hopen] at h
      simp at h
    rw [if_pos hopen] at h
    by_cases hr : r = a.requester_id
    case neg =>
      rw [if_neg hr] at h
      simp at h
    rw [if_pos hr] at h
    simp only [Except.ok.injEq] at h
    subst h
    exact ⟨a, { a with outcome := .cancelled }, rfl, hopen, rfl, rfl, rfl, rfl⟩

/-- Helper: a successful edit changes only the task record. -/
theorem editTask_ok_shape (st : EngineState) (ns : List Nat) (st' : EngineState)
    (h : editTask st ns = .ok st') :
    st'.approvals = st.approvals ∧ st'.nextId = st.nextId ∧ st'.history = st.history := by
  unfold editTask at h
  rcases htask : st.task with _ | t <;> rw [htask] at h
  · simp at h
  · dsimp only at h
    by_cases hg : hasOpenApproval st = true
    · rw [if_pos hg] at h
      simp at h
    · rw [if_neg hg] at h
      simp only [Except.ok.injEq] at h
      subst h
      exact ⟨rfl, rfl, rfl⟩

/-- Helper: a successful deletion clears the task's aggregate,
including (per the schema's `ON DELETE CASCADE`) its history rows. -/
theorem deleteTask_ok_shape (st : EngineState) (st' : EngineState)
    (h : deleteTask st = .ok st') :
    st'.approvals = [] ∧ st'.history = [] := by
  unfold deleteTask at h
  rcases htask : st.task with _ | t <;> rw [htask] at h
  · simp at h
  · dsimp only at h
    by_cases hg : hasOpenApproval st = true
    · rw [if_pos hg] at h
      simp at h
    · rw [if_neg hg] at h
      simp only [Except.ok.injEq] at h
      subst h
      exact ⟨rfl, rfl⟩

/-- Helper: replacing id-matching elements keeps the list of ids. -/
theorem map_id_replace (l : List PendingApproval) (a' : PendingApproval) :
    (replaceApproval l a').map (fun x => x.id) = l.map fun x => x.id := by
  induction l with
  | nil => rfl
  | cons x xs ih =>
    simp only [replaceApproval, List.map_cons] at *
    by_cases hx : x.id = a'.id
    · rw [if_pos hx, ih, ← hx]
    · rw [if_neg hx, ih]

/-- Helper: when ids are unique, replacing the open approval found by
an id-search with another open approval keeps the open count. -/
theorem openCount_replace_of_open (l : List PendingApproval) (a a' : PendingApproval)
    (hnd : (l.map fun x => x.id).Nodup) (hmem : a ∈ l) (ha : a.outcome = .open_)
    (hid : a'.id = a.id) (ha' : a'.outcome = .open_) :
    openCount (replaceApproval l a') = openCount l := by
  unfold openCount replaceApproval
  rw [List.countP_map]
  apply List.countP_congr
  intro x hx
  by_cases hxe : x.id = a'.id
  · have hxa : x = a :=
      List.inj_on_of_nodup_map hnd hx hmem (by rw [hxe, hid])
    subst hxa
    simp [if_pos hxe, ha, ha']
  · simp [if_neg hxe]

/-- Modelled from the spec: the structural well-formedness the engine
maintains — approval ids are below the id counter, pairwise distinct,
and at most one approval is open. -/
def wellFormed (st : EngineState) : Prop :=
  (∀ a ∈ st.approvals, a.id < st.nextId) ∧
  ((st.approvals.map fun a => a.id).Nodup) ∧
  openCount st.approvals ≤ 1

/-- Helper: in-place replacement of the open approval found by id, by
any same-id approval, preserves well-formedness. -/
theorem wellFormed_of_replace (st st' : EngineState) (a a' : PendingApproval) (aid : Nat)
    (hfa : findApproval st aid = some a) (hopen : a.outcome = .open_) (hid : a'.id = a.id)
    (happ : st'.approvals = replaceApproval st.approvals a')
    (hnext : st'.nextId = st.nextId)
    (h : wellFormed st) : wellFormed st' := by
  obtain ⟨hlt, hnd, hcnt⟩ := h
  have hmem : a ∈ st.approvals := List.mem_of_find?_eq_some hfa
  refine ⟨?_, ?_, ?_⟩
  · intro b hb
    rw [hnext]
    rw [happ] at hb
    simp only [replaceApproval] at hb
    obtain ⟨x, hx, hxb⟩ := List.mem_map.mp hb
    by_cases hxe : x.id = a'.id
    · rw [if_pos hxe] at hxb
      subst hxb
      rw [hid]
      exact hlt a hmem
    · rw [if_neg hxe] at hxb
      subst hxb
      exact hlt x hx
  · rw [happ, map_id_replace]
    exact hnd
  · rw [happ]
    by_cases hao : a'.outcome = .open_
    · rw [openCount_replace_of_open st.approvals a a' hnd hmem hopen hid hao]
      exact hcnt
    · exact le_trans (openCount_replace_le st.approvals a' hao) hcnt

/-- Helper: every engine operation preserves well-formedness. -/
theorem wellFormed_step (st : EngineState) (op : Op) (h : wellFormed st) :
    wellFormed (step st op) := by
  obtain ⟨hlt, hnd, hcnt⟩ := h
  cases op with
  | request r tgt adm =>
    rcases hreq : requestTransition st r tgt adm with e | p
    · have hstep : step st (Op.request r tgt adm) = st := by simp [step, hreq]
      rw [hstep]
      exact ⟨hlt, hnd, hcnt⟩
    · obtain ⟨st', res⟩ := p
      have hstep : step st (Op.request r tgt adm) = st' := by simp [step, hreq]
      rw [hstep]
      rcases requestTransition_ok_shape st r tgt adm st' res hreq with
        rfl | ⟨task, htask, rfl⟩ | ⟨hop, task, htask, rfl⟩
      · exact ⟨hlt, hnd, hcnt⟩
      · exact ⟨hlt, hnd, hcnt⟩
      · refine ⟨?_, ?_, ?_⟩
        · intro b hb
          rcases List.mem_append.mp hb with hb' | hb'
          · exact Nat.lt_succ_of_lt (hlt b hb')
          · simp only [List.mem_singleton] at hb'
            subst hb'
            exact Nat.lt_succ_self _
        · rw [List.map_append]
          refine List.Nodup.append hnd (by simp) ?_
          intro x hx hx2
          simp only [List.map_cons, List.map_nil, List.mem_singleton] at hx2
          obtain ⟨b, hb, hbid⟩ := List.mem_map.mp hx
          have := hlt b hb
          omega
        · have h0 : openCount st.approvals = 0 := (hasOpen_false_iff st).mp (by simpa using hop)
          unfold openCount at h0 ⊢
          rw [List.countP_append]
          simp [h0]
  | cast aid s d c =>
    rcases hres : castBallot st aid s d c with e | st'
    · have hstep : step st (Op.cast aid s d c) = st := by simp [step, hres]
      rw [hstep]
      exact ⟨hlt, hnd, hcnt⟩
    · have hstep : step st (Op.cast aid s d c) = st' := by simp [step, hres]
      rw [hstep]
      obtain ⟨a, a', hfa, hopen, hid, happ, hnext, _, _⟩ :=
        castBallot_ok_shape st aid s d c st' hres
      exact wellFormed_of_replace st st' a a' aid hfa hopen hid happ hnext ⟨hlt, hnd, hcnt⟩
  | cancel aid r =>
    rcases hres : cancelPendingApproval st aid r with e | st'
    · have hstep : step st (Op.cancel aid r) = st := by simp [step, hres]
      rw [hstep]
      exact ⟨hlt, hnd, hcnt⟩
    · have hstep : step st (Op.cancel aid r) = st' := by simp [step, hres]
      rw [hstep]
      obtain ⟨a, a', hfa, hopen, hid, happ, hnext, _⟩ :=
        cancelPendingApproval_ok_shape st aid r st' hres
      exact wellFormed_of_replace st st' a a' aid hfa hopen hid happ hnext ⟨hlt, hnd, hcnt⟩
  | edit ns =>
    rcases hres : editTask st ns with e | st'
    · have hstep : step st (Op.edit ns) = st := by simp [step, hres]
      rw [hstep]
      exact ⟨hlt, hnd, hcnt⟩
    · have hstep : step st (Op.edit ns) = st' := by simp [step, hres]
      rw [hstep]
      obtain ⟨happ, hnext, _⟩ := editTask_ok_shape st ns st' hres
      rw [wellFormed, happ, hnext]
      exact ⟨hlt, hnd, hcnt⟩
  | del =>
    rcases hres : deleteTask st with e | st'
    · have hstep : step st Op.del = st := by simp [step, hres]
      rw [hstep]
      exact ⟨hlt, hnd, hcnt⟩
    · have hstep : step st Op.del = st' := by simp [step, hres]
      rw [hstep]
      obtain ⟨happ, _⟩ := deleteTask_ok_shape st st' hres
      rw [wellFormed, happ]
      simp [openCount]

/-- Helper: well-formedness holds along every run from a fresh task. -/
theorem wellFormed_run (ops : List Op) :
    ∀ st : EngineState, wellFormed st → wellFormed (run st ops) := by
  induction ops with
  | nil => exact fun st h => h
  | cons op rest ih => exact fun st h => ih (step st op) (wellFormed_step st op h)

/-- C5: over every sequence of engine operations from a fresh task,
at most one `PendingApproval` is open; and while one is open, field
edits and deletion fail with `TaskLocked` and every new
`requestTransition` is rejected — with `DuplicatePendingApproval` for
an authorized requester — inside the engine operations themselves. -/
theorem mutation_guard_and_invariant :
    (∀ (t : Task) (ops : List Op), atMostOneOpen (run (initState t) ops)) ∧
    (∀ (st : EngineState) (task : Task), st.task = some task →
      hasOpenApproval st = true →
      (∀ ns, editTask st ns = .error .TaskLocked) ∧
      deleteTask st = .error .TaskLocked ∧
      (∀ r tgt adm res, ¬ requestTransition st r tgt adm = .ok res) ∧
      (∀ r tgt adm, (r = task.creator_id ∨ adm = true) →
        requestTransition st r tgt adm = .error .DuplicatePendingApproval)) := by
  constructor
  · intro t ops
    have hwf : wellFormed (initState t) := by
      refine ⟨?_, ?_, ?_⟩ <;> simp [initState, openCount]
    exact (wellFormed_run ops (initState t) hwf).2.2
  · intro st task htask hopen
    refine ⟨?_, ?_, ?_, ?_⟩
    · intro ns
      simp [editTask, htask, hopen]
    · simp [deleteTask, htask, hopen]
    · intro r tgt adm res hok
      simp only [requestTransition, htask] at hok
      by_cases h1 : r = task.creator_id ∨ adm = true
      · rw [if_pos h1, if_pos hopen] at hok
        simp at hok
      · rw [if_neg h1] at hok
        simp at hok
    · intro r tgt adm hauth
      simp only [requestTransition, htask]
      rw [if_pos hauth, if_pos hopen]

/-- C5 witness: one request on the fresh `wTask` state keeps the
invariant, and on `wStPending` (open approval present) edit, delete and
a new request are all rejected. -/
theorem mutation_guard_and_invariant_witness :
    atMostOneOpen (run (initState wTask) [Op.request 0 .task_review false]) ∧
    editTask wStPending [3] = .error .TaskLocked ∧
    deleteTask wStPending = .error .TaskLocked ∧
    requestTransition wStPending 0 .task_review false = .error .DuplicatePendingApproval :=
  ⟨mutation_guard_and_invariant.1 wTask [Op.request 0 .task_review false],
   (mutation_guard_and_invariant.2 wStPending wTask rfl rfl).1 [3],
   (mutation_guard_and_invariant.2 wStPending wTask rfl rfl).2.1,
   (mutation_guard_and_invariant.2 wStPending wTask rfl rfl).2.2.2 0 .task_review false
     (Or.inl rfl)⟩

/-- C7 counterexample: a history row already written for `wTask` is
gone after the task is deleted — the schema's `ON DELETE CASCADE` on
`task_status_history.task_id` removes it, so deletion does not leave
previously written history rows intact. -/
theorem deleteTask_cascades_history :
    (⟨.todo, .task_review, 0, none, none⟩ : HistoryEntry) ∈ wStLogged.history ∧
    (⟨.todo, .task_review, 0, none, none⟩ : HistoryEntry) ∉ (step wStLogged Op.del).history := by
  decide

/-- C7 amended: history rows are never mutated, and every operation
except task deletion only ever appends to the history; task deletion
either fails or — per the schema's cascade — removes the task's
history rows wholesale. -/
theorem history_append_only_except_delete :
    (∀ (st : EngineState) (op : Op), op ≠ Op.del →
      ∃ t, (step st op).history = st.history ++ t) ∧
    (∀ st : EngineState,
      (step st Op.del).history = st.history ∨ (step st Op.del).history = []) := by
  constructor
  · intro st op hne
    cases op with
    | request r tgt adm =>
      rcases hreq : requestTransition st r tgt adm with e | p
      · exact ⟨[], by simp [step, hreq]⟩
      · obtain ⟨st', res⟩ := p
        have hstep : step st (Op.request r tgt adm) = st' := by simp [step, hreq]
        rcases requestTransition_ok_shape st r tgt adm st' res hreq with
          rfl | ⟨task, htask, rfl⟩ | ⟨hop, task, htask, rfl⟩
        · exact ⟨[], by simp [hstep]⟩
        · exact ⟨[⟨task.status, tgt, r, none, none⟩], by rw [hstep]⟩
        · exact ⟨[], by rw [hstep]; simp⟩
    | cast aid s d c =>
      rcases hres : castBallot st aid s d c with e | st'
      · exact ⟨[], by simp [step, hres]⟩
      · obtain ⟨_, _, _, _, _, _, _, hs, hh⟩ := castBallot_ok_shape st aid s d c st' hres
        exact ⟨hs, by simp [step, hres, hh]⟩
    | cancel aid r =>
      rcases hres : cancelPendingApproval st aid r with e | st'
      · exact ⟨[], by simp [step, hres]⟩
      · obtain ⟨_, _, _, _, _, _, _, hh⟩ := cancelPendingApproval_ok_shape st aid r st' hres
        exact ⟨[], by simp [step, hres, hh]⟩
    | edit ns =>
      rcases hres : editTask st ns with e | st'
      · exact ⟨[], by simp [step, hres]⟩
      · obtain ⟨_, _, hh⟩ := editTask_ok_shape st ns st' hres
        exact ⟨[], by simp [step, hres, hh]⟩
    | del => exact absurd rfl hne
  · intro st
    rcases hres : deleteTask st with e | st'
    · exact Or.inl (by simp [step, hres])
    · exact Or.inr (by simp [step, hres, (deleteTask_ok_shape st st' hres).2])

/-- C7 amended witness: a concrete non-delete operation (an edit on
`wStLogged`) only appends to the history. -/
theorem history_append_only_except_delete_witness :
    ∃ t, (step wStLogged (Op.edit [5])).history = wStLogged.history ++ t :=
  history_append_only_except_delete.1 wStLogged (Op.edit [5]) (by decide)

/-- Helper: `setVote` for one stakeholder does not disturb the ballot
search for a different stakeholder. -/
theorem find_setVote_ne (bs : List Ballot) (s t : Nat) (v : Vote) (hts : t ≠ s) :
    (setVote bs s v).find? (fun b => decide (b.stakeholder_id = t)) =
      bs.find? fun b => decide (b.stakeholder_id = t) := by
  induction bs with
  | nil => rfl
  | cons b rest ih =>
    simp only [setVote, List.map_cons]
    by_cases hb : b.stakeholder_id = s
    · have hst : ¬ b.stakeholder_id = t := by
        rw [hb]
        exact Ne.symm hts
      rw [if_pos hb, List.find?_cons_of_neg _ (by simpa using hst),
        List.find?_cons_of_neg _ (by simpa using hst)]
      exact ih
    · rw [if_neg hb]
      by_cases hbt : b.stakeholder_id = t
      · rw [List.find?_cons_of_pos _ (by simpa using hbt),
          List.find?_cons_of_pos _ (by simpa using hbt)]
      · rw [List.find?_cons_of_neg _ (by simpa using hbt),
          List.find?_cons_of_neg _ (by simpa using hbt)]
        exact ih

/-- Helper: in a freshly snapshotted ballot list every roster member
finds their own pending ballot. -/
theorem find_pending_roster (roster : List Nat) (s : Nat) (hs : s ∈ roster) :
    (roster.map fun m => (⟨m, .pending⟩ : Ballot)).find?
      (fun b => decide (b.stakeholder_id = s)) = some ⟨s, .pending⟩ := by
  induction roster with
  | nil => simp at hs
  | cons m rest ih =>
    simp only [List.map_cons]
    by_cases hm : m = s
    · subst hm
      rw [List.find?_cons_of_pos _ (by simp)]
    · rw [List.find?_cons_of_neg _ (by simpa using hm)]
      rcases List.mem_cons.mp hs with h | h
      · exact absurd h.symm hm
      · exact ih h

/-- Helper: if every ballot is approved or is the pending ballot of the
voter, the vote makes the list unanimous. -/
theorem allApproved_of_cover (bs : List Ballot) (s : Nat)
    (hcov : ∀ b ∈ bs, b.vote = .approved ∨ (b.vote = .pending ∧ b.stakeholder_id = s)) :
    allApproved (setVote bs s .approved) = true := by
  rw [allApproved, List.all_eq_true]
  intro b hb
  simp only [setVote] at hb
  obtain ⟨x, hx, rfl⟩ := List.mem_map.mp hb
  rcases hcov x hx with hap | ⟨hp, hid⟩
  · by_cases hxs : x.stakeholder_id = s
    · simp [if_pos hxs]
    · simp [if_neg hxs, hap]
  · simp [if_pos hid]

/-- Helper: a still-pending ballot of a different stakeholder keeps the
list from being unanimous. -/
theorem not_allApproved_of_pending (bs : List Ballot) (s t : Nat) (b : Ballot)
    (hts : t ≠ s)
    (hfind : bs.find? (fun x => decide (x.stakeholder_id = t)) = some b)
    (hb : b.vote = .pending) :
    allApproved (setVote bs s .approved) = false := by
  have hmem : b ∈ bs := List.mem_of_find?_eq_some hfind
  have hbt : b.stakeholder_id = t := by simpa using List.find?_some hfind
  rw [Bool.eq_false_iff]
  intro hall
  rw [allApproved, List.all_eq_true] at hall
  have hbmem : b ∈ setVote bs s .approved := by
    have hmm : (if b.stakeholder_id = s then { b with vote := Vote.approved } else b)
        ∈ setVote bs s .approved := by
      simp only [setVote]
      exact List.mem_map_of_mem _ hmem
    rwa [if_neg (by rw [hbt]; exact hts)] at hmm
  have := hall b hbmem
  simp [hb] at this

/-- Helper for C9: starting from a state holding exactly one open
approval whose still-pending ballots belong precisely to the (distinct)
stakeholders in `rem`, casting one approving vote per member of `rem`
in that order finalizes exactly once: one `"passed"` history row, one
status change, the approval closed as approved. -/
theorem run_casts_approve_aux (rem : List Nat) :
    ∀ (st : EngineState) (a : PendingApproval),
      st.approvals = [a] → a.outcome = .open_ → rem.Nodup → rem ≠ [] →
      (∀ s ∈ rem, ∃ b, a.ballots.find? (fun x => decide (x.stakeholder_id = s)) = some b ∧
        b.vote = .pending) →
      (∀ b ∈ a.ballots, b.vote = .approved ∨
        (b.vote = .pending ∧ b.stakeholder_id ∈ rem)) →
      ∃ w ∈ rem, ∃ bs,
        run st (rem.map fun s => Op.cast a.id s .approve none) =
          { st with
            task := st.task.map fun t => { t with status := a.to_status },
            approvals := [{ a with ballots := bs, outcome := .approved }],
            history := st.history ++
              [⟨a.from_status, a.to_status, w, some "passed", none⟩] } := by
  induction rem with
  | nil =>
    intro st a _ _ _ hne _ _
    exact absurd rfl hne
  | cons s rest ih =>
    intro st a happ hopen hnd _ hpend hcov
    have hfa : findApproval st a.id = some a := by
      simp [findApproval, happ]
    obtain ⟨b, hfb, hbp⟩ := hpend s (List.mem_cons_self s rest)
    have hsnotin : s ∉ rest := (List.nodup_cons.mp hnd).1
    rcases eq_or_ne rest [] with hrest | hrest
    · subst hrest
      have hall : allApproved (setVote a.ballots s .approved) = true := by
        apply allApproved_of_cover
        intro x hx
        rcases hcov x hx with hap | ⟨hp, hm⟩
        · exact Or.inl hap
        · simp only [List.mem_singleton] at hm
          exact Or.inr ⟨hp, hm⟩
      refine ⟨s, List.mem_cons_self s [], setVote a.ballots s .approved, ?_⟩
      show step st (Op.cast a.id s .approve none) = _
      simp [step, castBallot, hfa, hopen, hfb, hbp, hall, setApproval, replaceApproval, happ]
    · obtain ⟨t, ht⟩ := List.exists_mem_of_ne_nil rest hrest
      obtain ⟨bt, hfbt, hbtp⟩ := hpend t (List.mem_cons_of_mem s ht)
      have hts : t ≠ s := fun h => hsnotin (h ▸ ht)
      have hall : allApproved (setVote a.ballots s .approved) = false :=
        not_allApproved_of_pending a.ballots s t bt hts hfbt hbtp
      have hcast : castBallot st a.id s .approve none =
          .ok (setApproval st { a with ballots := setVote a.ballots s .approved }) := by
        simp [castBallot, hfa, hopen, hfb, hbp, hall]
      have hstep : step st (Op.cast a.id s .approve none) =
          setApproval st { a with ballots := setVote a.ballots s .approved } := by
        simp [step, hcast]
      have happ2 : (setApproval st { a with ballots := setVote a.ballots s .approved }).approvals
          = [{ a with ballots := setVote a.ballots s .approved }] := by
        simp [setApproval, replaceApproval, happ]
      have hpend2 : ∀ u ∈ rest,
          ∃ b', ({ a with ballots := setVote a.ballots s .approved } :
              PendingApproval).ballots.find?
            (fun x => decide (x.stakeholder_id = u)) = some b' ∧ b'.vote = .pending := by
        intro u hu
        have hus : u ≠ s := fun h => hsnotin (h ▸ hu)
        obtain ⟨bu, hfbu, hbup⟩ := hpend u (List.mem_cons_of_mem s hu)
        refine ⟨bu, ?_, hbup⟩
        rw [show ({ a with ballots := setVote a.ballots s .approved } :
            PendingApproval).ballots = setVote a.ballots s .approved from rfl,
          find_setVote_ne a.ballots s u .approved hus]
        exact hfbu
      have hcov2 : ∀ b' ∈ ({ a with ballots := setVote a.ballots s .approved } :
          PendingApproval).ballots,
          b'.vote = .approved ∨ (b'.vote = .pending ∧ b'.stakeholder_id ∈ rest) := by
        intro b' hb'
        have hbm : b' ∈ setVote a.ballots s .approved := hb'
        simp only [setVote] at hbm
        obtain ⟨x, hx, rfl⟩ := List.mem_map.mp hbm
        rcases hcov x hx with hap | ⟨hp, hm⟩
        · by_cases hxs : x.stakeholder_id = s
          · rw [if_pos hxs]
            exact Or.inl rfl
          · rw [if_neg hxs]
            exact Or.inl hap
        · by_cases hxs : x.stakeholder_id = s
          · rw [if_pos hxs]
            exact Or.inl rfl
          · rw [if_neg hxs]
            rcases List.mem_cons.mp hm with h | h
            · exact absurd h hxs
            · exact Or.inr ⟨hp, h⟩
      obtain ⟨w, hw, bs, hrun⟩ :=
        ih (setApproval st { a with ballots := setVote a.ballots s .approved })
          { a with ballots := setVote a.ballots s .approved }
          happ2 hopen (List.nodup_cons.mp hnd).2 hrest hpend2 hcov2
      refine ⟨w, List.mem_cons_of_mem s hw, bs, ?_⟩
      show run (step st (Op.cast a.id s .approve none))
        (rest.map fun u => Op.cast a.id u .approve none) = _
      rw [hstep]
      exact hrun

/-- C9: with a roster of `N` distinct stakeholders all still pending on
one open approval, the `N` approving `castBallot` calls — in whatever
interleaving (any permutation of the roster; each call is atomic per
section 5) — produce exactly one finalize-and-apply event: one status
change to `to_status` and exactly one `"passed"` history row. -/
theorem castBallot_concurrent_unanimous
    (st : EngineState) (a : PendingApproval) (roster order : List Nat)
    (happ : st.approvals = [a]) (hopen : a.outcome = .open_)
    (hballots : a.ballots = roster.map fun m => ⟨m, .pending⟩)
    (hnd : roster.Nodup) (hne : roster ≠ [])
    (hperm : order.Perm roster) :
    ∃ w ∈ order, ∃ bs,
      run st (order.map fun s => Op.cast a.id s .approve none) =
        { st with
          task := st.task.map fun t => { t with status := a.to_status },
          approvals := [{ a with ballots := bs, outcome := .approved }],
          history := st.history ++
            [⟨a.from_status, a.to_status, w, some "passed", none⟩] } := by
  apply run_casts_approve_aux order st a happ hopen
  · exact hperm.nodup_iff.mpr hnd
  · intro h
    rw [h] at hperm
    exact hne hperm.symm.eq_nil
  · intro s hs
    have hsr : s ∈ roster := hperm.subset hs
    exact ⟨⟨s, .pending⟩, by rw [hballots]; exact find_pending_roster roster s hsr, rfl⟩
  · intro b hb
    rw [hballots] at hb
    obtain ⟨m, hm, rfl⟩ := List.mem_map.mp hb
    exact Or.inr ⟨rfl, hperm.mem_iff.mpr hm⟩

/-- C9 witness: on `wStPending` (roster `{1, 2}`, both pending) the
interleaving `2, 1` of the two approving votes finalizes exactly once. -/
theorem castBallot_concurrent_unanimous_witness :
    ∃ w ∈ [2, 1], ∃ bs,
      run wStPending ([2, 1].map fun s => Op.cast wPending.id s .approve none) =
        { wStPending with
          task := wStPending.task.map fun t => { t with status := wPending.to_status },
          approvals := [{ wPending with ballots := bs, outcome := .approved }],
          history := wStPending.history ++
            [⟨wPending.from_status, wPending.to_status, w, some "passed", none⟩] } :=
  castBallot_concurrent_unanimous wStPending wPending [1, 2] [2, 1] rfl rfl rfl
    (by decide) (by decide) (by decide)

/-- C10 amended witness: the three clauses at concrete inputs — the
self-transition `"bogus" -> "bogus"`, the plain miss `"bogus" ->
"todo"`, and the throwing access `"toString" -> "todo"`. -/
theorem canTransitionToStr_behavior_witness :
    canTransitionToStr "bogus" "bogus" = .value true ∧
    ("bogus" ∉ transitionKeys ∧ "bogus" ∉ objectProtoKeys ∧
      canTransitionToStr "bogus" "todo" = .value false) ∧
    ("toString" ∉ transitionKeys ∧ "toString" ∈ objectProtoKeys ∧
      canTransitionToStr "toString" "todo" = .typeError) :=
  ⟨(canTransitionToStr_behavior "bogus" "bogus").1 rfl,
   ⟨by decide, by decide,
    (canTransitionToStr_behavior "bogus" "todo").2.1 (by decide) (by decide) (by decide)⟩,
   ⟨by decide, by decide,
    (canTransitionToStr_behavior "toString" "todo").2.2 (by decide) (by decide) (by decide)⟩⟩

end TPM
